import Mathlib

/-!
Verification of the nexus-ops parser core (`parser/parse.go`).

Text is modelled as `List Char`; Go string functions (`strings.TrimSpace`,
`strings.Fields`, `strings.Join`, `strings.ReplaceAll`, `strings.TrimSuffix`,
`filepath.Ext`) are embedded as executable Lean functions on `List Char`.
Concrete syntax trees from the tree-sitter engine are modelled by `CNode`
(a node carries its grammar type, the source text it spans, and its named
children, which are the only children the Go code ever visits).  The
reduced generic tree is `Node`, mirroring the Go struct
`Node{Type, Value, Children}` with the zero value "" standing for an
absent `Value`.
-/

namespace NexusOps


/-- Go's `unicode.IsSpace` on the code points it declares as white space:
space, tab, newline, vertical tab, form feed, carriage return, NEL, NBSP,
and the Unicode `White_Space` code points outside Latin-1. -/
def goIsSpace (c : Char) : Bool :=
  let n := c.toNat
  n == 32 || n == 9 || n == 10 || n == 13 || n == 11 || n == 12 ||
  n == 133 || n == 160 || n == 5760 ||
  (decide (8192 ≤ n) && decide (n ≤ 8202)) ||
  n == 8232 || n == 8233 || n == 8239 || n == 8287 || n == 12288

/-- Leading-whitespace trim, the left half of Go's `strings.TrimSpace`. -/
def trimLeft (s : List Char) : List Char :=
  s.dropWhile goIsSpace

/-- Trailing-whitespace trim, the right half of Go's `strings.TrimSpace`. -/
def trimRight (s : List Char) : List Char :=
  (s.reverse.dropWhile goIsSpace).reverse

/-- Go's `strings.TrimSpace`: remove leading and trailing white space. -/
def trimSpace (s : List Char) : List Char :=
  trimLeft (trimRight s)

/-- Accumulator worker for `fields`; `acc` holds the reversed current field. -/
def fieldsAux : List Char → List Char → List (List Char)
  | [], acc => if acc = [] then [] else [acc.reverse]
  | c :: cs, acc =>
    if goIsSpace c then
      if acc = [] then fieldsAux cs [] else acc.reverse :: fieldsAux cs []
    else
      fieldsAux cs (c :: acc)

/-- Go's `strings.Fields`: split around runs of white space, dropping
empty fields. -/
def fields (s : List Char) : List (List Char) :=
  fieldsAux s []

/-- Go's `strings.Join(elems, " ")`: concatenate with a single space
between consecutive elements. -/
def joinSp : List (List Char) → List Char
  | [] => []
  | [l] => l
  | l :: ls => l ++ ' ' :: joinSp ls

/-- Go's `strings.TrimSuffix`: drop `suf` from the end of `l` when it is a
suffix, otherwise return `l` unchanged. -/
def trimSuffix (l suf : List Char) : List Char :=
  if suf.isSuffixOf l then l.take (l.length - suf.length) else l

/-- `sanitizeValue` from `parse.go`: remove `\r`, remove `\n`, replace `\t`
with a space, then collapse whitespace runs via `Fields` + `Join " "`. -/
def sanitizeValue (value : List Char) : List Char :=
  let v1 := value.filter (fun c => decide (¬ c = '\r'))
  let v2 := v1.filter (fun c => decide (¬ c = '\n'))
  let v3 := v2.map (fun c => if c = '\t' then ' ' else c)
  joinSp (fields v3)

/-- `true` when the word contains no two consecutive space characters. -/
def noDoubleSpace : List Char → Bool
  | c :: d :: rest => (!(c == ' ' && d == ' ')) && noDoubleSpace (d :: rest)
  | _ => true

/-- Convenience: the character list underlying a string literal. -/
def toChars (s : String) : List Char :=
  s.data

/-- A concrete syntax tree node as the Go code observes it through the
tree-sitter API: its grammar `type`, the source text the node spans
(`node.Content(source)`), and its named children in source order (the Go
code only ever visits `NamedChild(i)` for `i < NamedChildCount()`). -/
inductive CNode : Type where
  | mk (type : String) (content : List Char) (children : List CNode)

def CNode.type : CNode → String
  | .mk t _ _ => t

def CNode.content : CNode → List Char
  | .mk _ c _ => c

def CNode.children : CNode → List CNode
  | .mk _ _ cs => cs

/-- The generic output tree, mirroring the Go struct
`Node{Type string; Value string; Children []Node}`; the Go zero value ""
(serialized as an omitted field) is the empty list here. -/
inductive Node : Type where
  | mk (type : String) (value : List Char) (children : List Node)

def Node.type : Node → String
  | .mk t _ _ => t

def Node.value : Node → List Char
  | .mk _ v _ => v

def Node.children : Node → List Node
  | .mk _ _ cs => cs

/-- The composite string built inside `isRedundantChildren`: concatenate
`TrimSpace(child.Content(source)) + "."` over the named children, then
`TrimSuffix` the final `"."`. -/
def composite (cs : List CNode) : List Char :=
  trimSuffix (List.flatten (cs.map (fun c => trimSpace c.content ++ ['.']))) ['.']

/-- `isRedundantChildren` from `parse.go`: only for `scoped_identifier`
nodes, report whether the node's own trimmed text equals the `.`-join of
its named children's trimmed texts. -/
def isRedundantChildren (node : CNode) : Bool :=
  if node.type = "scoped_identifier" then
    decide (trimSpace node.content = composite node.children)
  else false

mutual

/-- `traverseTree` from `parse.go`: set `Type`; populate `Value` with the
sanitized trimmed source text unless the type is `class_declaration`;
if the value is non-empty and `isRedundantChildren` holds, return without
children; otherwise recurse into every named child in source order. -/
def traverseTree : CNode → Node
  | CNode.mk ty content cs =>
    let value := if ty = "class_declaration" then [] else sanitizeValue (trimSpace content)
    if value ≠ [] ∧ isRedundantChildren (CNode.mk ty content cs) = true then
      Node.mk ty value []
    else
      Node.mk ty value (traverseTreeList cs)

/-- The loop over `NamedChild(i)` in `traverseTree`. -/
def traverseTreeList : List CNode → List Node
  | [] => []
  | c :: cs => traverseTree c :: traverseTreeList cs

end

/-- One iteration of the locator loop in `saveClassToFileWithDir`: for a
child of a declaration type (class or interface), overwrite the running
`className` with the `Value` of the child's first grandchild of type
`identifier` (the inner loop breaks at the first one); a declaration child
without an identifier grandchild, or a non-declaration child, leaves the
running name unchanged. -/
def locateStep (acc : List Char) (child : Node) : List Char :=
  if child.type = "class_declaration" ∨ child.type = "interface_declaration" then
    match child.children.find? (fun gc => gc.type == "identifier") with
    | some gc => gc.value
    | none => acc
  else acc

/-- The `className` computation of `saveClassToFileWithDir`: fold the
locator loop over the immediate children of the file's root node, starting
from the empty (Go zero-value) name. -/
def locateClassName (tree : Node) : List Char :=
  tree.children.foldl locateStep []

/-- The name a single root child contributes: `some` of the first
identifier grandchild's `Value` for declaration-typed children that have
one, `none` otherwise. -/
def declName (c : Node) : Option (List Char) :=
  if c.type = "class_declaration" ∨ c.type = "interface_declaration" then
    (c.children.find? (fun gc => gc.type == "identifier")).map Node.value
  else none

/-- The last element of a list, or the default when the list is empty. -/
def lastOr : List (List Char) → List Char → List Char
  | [], d => d
  | x :: xs, _ => lastOr xs x

/-- The log lines `parse.go` can emit, by call site. -/
inductive LogMsg : Type where
  | accessErr (path : String)
  | parseErr (path : String)
  | saveErr (path : String) (msg : String)
  | notFound (path : String)
  | saved (name : List Char) (path : String)

/-- `saveClassToFileWithDir` modelled at the emission level: compute the
class name; when it is empty, log the not-found line and return nil with
no artifact; otherwise `ioError` stands in for a failure of any of the
filesystem steps (`filepath.Rel`, `MkdirAll`, `WriteFile`), which is
returned as the error with nothing written; on success the artifact
(identified by its class name) is written and logged.  The result triple
is (returned error, written artifact, log lines). -/
def saveClassToFileWithDir (tree : Node) (filePath : String)
    (ioError : Option String) :
    Option String × Option (List Char) × List LogMsg :=
  if locateClassName tree = [] then (none, none, [LogMsg.notFound filePath])
  else
    match ioError with
    | some e => (some e, none, [])
    | none =>
      (none, some (locateClassName tree),
        [LogMsg.saved (locateClassName tree) filePath])

/-- Go's `filepath.Ext`: the suffix of the final path element starting at
its last dot, or empty when that element has no dot. -/
def goExt (name : List Char) : List Char :=
  let rev := name.reverse.takeWhile (fun c => decide (¬ c = '/'))
  if '.' ∈ rev then
    '.' :: (rev.takeWhile (fun c => decide (¬ c = '.'))).reverse
  else []

/-- One entry handed to the `filepath.WalkDir` callback: an access error
reported through the callback's `err` argument, a directory entry, or a
regular-file entry.  For file entries, `parsed` is the outcome of
`extractTree` (`none` on read failure, tree-sitter never fails), and
`ioError` the outcome of the filesystem steps of the save. -/
inductive WalkEvent : Type where
  | accessError (path : String)
  | dirEntry (path : String) (name : String)
  | fileEntry (path : String) (name : String) (parsed : Option CNode)
      (ioError : Option String)

/-- The `WalkDirFunc` closure inside `ParseProject`: log and swallow access
errors, skip directories and non-`.java` files, log and swallow per-file
parse failures and save failures.  The triple is (error returned to
`WalkDir`, artifact, log lines); the closure returns nil on every path. -/
def walkFn : WalkEvent → Option String × Option (List Char) × List LogMsg
  | WalkEvent.accessError p => (none, none, [LogMsg.accessErr p])
  | WalkEvent.dirEntry _ _ => (none, none, [])
  | WalkEvent.fileEntry p nm parsed ioErr =>
    if goExt (toChars nm) = toChars ".java" then
      match parsed with
      | none => (none, none, [LogMsg.parseErr p])
      | some ctree =>
        match saveClassToFileWithDir (traverseTree ctree) p ioErr with
        | (some e, _, logs) => (none, none, logs ++ [LogMsg.saveErr p e])
        | (none, art, logs) => (none, art, logs)
    else (none, none, [])

/-- Aggregate outcome of a run: the error returned by `ParseProject`, the
artifacts written, and the log lines emitted. -/
structure RunResult : Type where
  err : Option String
  artifacts : List (List Char)
  logs : List LogMsg

/-- `filepath.WalkDir` driving the callback over the enumerated entries:
it stops and returns the first non-nil error the callback returns,
otherwise returns nil after the last entry. -/
def walkDir : List WalkEvent → RunResult
  | [] => ⟨none, [], []⟩
  | ev :: rest =>
    match walkFn ev with
    | (some e, _, logs) => ⟨some e, [], logs⟩
    | (none, art, logs) =>
      let r := walkDir rest
      ⟨r.err, art.toList ++ r.artifacts, logs ++ r.logs⟩

/-- `ParseProject` from `parse.go`: run the walk and wrap a non-nil walk
error in the `erro ao percorrer diretorios` message. -/
def ParseProject (events : List WalkEvent) : RunResult :=
  let r := walkDir events
  match r.err with
  | some e => ⟨some ("erro ao percorrer diretorios: " ++ e), r.artifacts, r.logs⟩
  | none => ⟨none, r.artifacts, r.logs⟩

/-- `true` when some immediate child is a declaration (class or interface)
that has an identifier grandchild — the "declaration/identifier pair" of
the spec. -/
def hasDeclPair (tree : Node) : Bool :=
  tree.children.any (fun c =>
    (c.type == "class_declaration" || c.type == "interface_declaration") &&
    c.children.any (fun gc => gc.type == "identifier"))

/-- The JSON tree shape relevant to the emitted artifacts: strings, arrays
and objects (an object is an ordered field list, as `encoding/json`
serializes struct fields in declaration order). -/
inductive Json : Type where
  | str (s : List Char)
  | arr (elems : List Json)
  | obj (fields : List (String × Json))

mutual

/-- `json.MarshalIndent` on the `Node` struct, at tree level: `type` always
present, `value` and `children` omitted when empty (their `omitempty`
tags); indentation is textual only and carries no structure. -/
def toJson : Node → Json
  | Node.mk t v cs =>
    Json.obj (("type", Json.str (toChars t)) ::
      ((if v = [] then [] else [("value", Json.str v)]) ++
       (if cs.isEmpty then [] else [("children", Json.arr (toJsonList cs))])))

/-- Serialization of a `[]Node` slice. -/
def toJsonList : List Node → List Json
  | [] => []
  | n :: ns => toJson n :: toJsonList ns

end


mutual

/-- `json.Unmarshal` into the `Node` struct, at tree level: only an object
decodes; absent fields keep the Go zero value, unknown fields are ignored,
later duplicates overwrite earlier ones, and a field of the wrong shape is
an error. -/
def decodeNode : Json → Option Node
  | Json.obj fs => decodeFields fs (Node.mk "" [] [])
  | _ => none

/-- Fold the object's fields over the partially decoded node. -/
def decodeFields : List (String × Json) → Node → Option Node
  | [], acc => some acc
  | (k, v) :: rest, acc =>
    if k = "type" then
      match v with
      | Json.str s => decodeFields rest (Node.mk (String.mk s) acc.value acc.children)
      | _ => none
    else if k = "value" then
      match v with
      | Json.str s => decodeFields rest (Node.mk acc.type s acc.children)
      | _ => none
    else if k = "children" then
      match v with
      | Json.arr xs =>
        match decodeList xs with
        | some cs => decodeFields rest (Node.mk acc.type acc.value cs)
        | none => none
      | _ => none
    else decodeFields rest acc

/-- Decode a JSON array element-wise into a `[]Node` slice. -/
def decodeList : List Json → Option (List Node)
  | [] => some []
  | j :: js =>
    match decodeNode j, decodeList js with
    | some n, some ns => some (n :: ns)
    | _, _ => none

end


/-- Whether the serialized object carries the given field. -/
def hasField (j : Json) (key : String) : Bool :=
  match j with
  | Json.obj fs => fs.any (fun kv => kv.1 == key)
  | _ => false

theorem goIsSpace_space : goIsSpace ' ' = true := by decide

theorem not_space_ne (c : Char) (h : goIsSpace c = false) :
    c ≠ '\r' ∧ c ≠ '\n' ∧ c ≠ '\t' ∧ c ≠ ' ' := by
  refine ⟨?_, ?_, ?_, ?_⟩ <;> rintro rfl <;> simp [goIsSpace] at h

theorem fieldsAux_nil (acc : List Char) :
    fieldsAux [] acc = if acc = [] then [] else [acc.reverse] := rfl

theorem fieldsAux_cons_space {c : Char} (h : goIsSpace c = true)
    (cs acc : List Char) :
    fieldsAux (c :: cs) acc =
      if acc = [] then fieldsAux cs [] else acc.reverse :: fieldsAux cs [] := by
  simp [fieldsAux, h]

theorem fieldsAux_cons_nonspace {c : Char} (h : goIsSpace c = false)
    (cs acc : List Char) :
    fieldsAux (c :: cs) acc = fieldsAux cs (c :: acc) := by
  simp [fieldsAux, h]

theorem fieldsAux_chunks (s : List Char) :
    ∀ acc, (∀ c ∈ acc, goIsSpace c = false) →
      ∀ l ∈ fieldsAux s acc, l ≠ [] ∧ ∀ c ∈ l, goIsSpace c = false := by
  induction s with
  | nil =>
    intro acc hacc l hl
    by_cases h : acc = []
    · simp [fieldsAux_nil, h] at hl
    · rw [fieldsAux_nil, if_neg h] at hl
      rcases List.mem_singleton.mp hl with rfl
      constructor
      · simpa using h
      · intro c hc
        exact hacc c (List.mem_reverse.mp hc)
  | cons c cs ih =>
    intro acc hacc l hl
    cases hsp : goIsSpace c with
    | true =>
      rw [fieldsAux_cons_space hsp] at hl
      by_cases h : acc = []
      · rw [if_pos h] at hl
        exact ih [] (by simp) l hl
      · rw [if_neg h] at hl
        rcases List.mem_cons.mp hl with rfl | hl
        · constructor
          · simpa using h
          · intro d hd
            exact hacc d (List.mem_reverse.mp hd)
        · exact ih [] (by simp) l hl
    | false =>
      rw [fieldsAux_cons_nonspace hsp] at hl
      refine ih (c :: acc) ?_ l hl
      intro d hd
      rcases List.mem_cons.mp hd with rfl | hd
      · exact hsp
      · exact hacc d hd

theorem fields_chunks (s : List Char) :
    ∀ l ∈ fields s, l ≠ [] ∧ ∀ c ∈ l, goIsSpace c = false :=
  fieldsAux_chunks s [] (by simp)

theorem fieldsAux_append_nonspace (l : List Char)
    (hl : ∀ c ∈ l, goIsSpace c = false) :
    ∀ s acc, fieldsAux (l ++ s) acc = fieldsAux s (l.reverse ++ acc) := by
  induction l with
  | nil => intro s acc; simp
  | cons c l ih =>
    intro s acc
    have hc : goIsSpace c = false := hl c (by simp)
    have hrest : ∀ d ∈ l, goIsSpace d = false := fun d hd => hl d (by simp [hd])
    rw [List.cons_append, fieldsAux_cons_nonspace hc, ih hrest s (c :: acc)]
    simp

theorem fields_of_joinSp (xss : List (List Char))
    (h : ∀ l ∈ xss, l ≠ [] ∧ ∀ c ∈ l, goIsSpace c = false) :
    fields (joinSp xss) = xss := by
  induction xss with
  | nil => simp [fields, joinSp, fieldsAux]
  | cons l ls ih =>
    have hl := h l (by simp)
    have hls : ∀ l' ∈ ls, l' ≠ [] ∧ ∀ c ∈ l', goIsSpace c = false :=
      fun l' hl' => h l' (by simp [hl'])
    cases ls with
    | nil =>
      show fields (joinSp [l]) = [l]
      have h0 : joinSp [l] = l ++ [] := by simp [joinSp]
      rw [h0, fields, fieldsAux_append_nonspace l hl.2 [] [], fieldsAux_nil]
      rw [if_neg (by simp [hl.1]), List.append_nil, List.reverse_reverse]
    | cons l' ls' =>
      show fields (l ++ ' ' :: joinSp (l' :: ls')) = l :: l' :: ls'
      rw [fields, fieldsAux_append_nonspace l hl.2 (' ' :: joinSp (l' :: ls')) []]
      rw [fieldsAux_cons_space goIsSpace_space]
      rw [if_neg (by simp [hl.1]), List.append_nil, List.reverse_reverse]
      rw [show fieldsAux (joinSp (l' :: ls')) [] = fields (joinSp (l' :: ls')) from rfl]
      rw [ih hls]

theorem mem_joinSp (xss : List (List Char)) (c : Char) (h : c ∈ joinSp xss) :
    c = ' ' ∨ ∃ l ∈ xss, c ∈ l := by
  induction xss with
  | nil => simp [joinSp] at h
  | cons l ls ih =>
    cases ls with
    | nil =>
      right
      exact ⟨l, by simp, by simpa [joinSp] using h⟩
    | cons l' ls' =>
      simp only [joinSp, List.mem_append, List.mem_cons] at h
      rcases h with h | h | h
      · exact Or.inr ⟨l, by simp, h⟩
      · exact Or.inl h
      · rcases ih h with h | ⟨m, hm, hcm⟩
        · exact Or.inl h
        · exact Or.inr ⟨m, by simp [hm], hcm⟩

theorem space_mem_joinSp_chunks (xss : List (List Char))
    (h : ∀ l ∈ xss, l ≠ [] ∧ ∀ c ∈ l, goIsSpace c = false) :
    ∀ c ∈ joinSp xss, goIsSpace c = true → c = ' ' := by
  intro c hc hsp
  rcases mem_joinSp xss c hc with rfl | ⟨l, hl, hcl⟩
  · rfl
  · rw [(h l hl).2 c hcl] at hsp
    exact absurd hsp (by simp)

theorem noDoubleSpace_cons_of_ne {a : Char} (ha : a ≠ ' ') (t : List Char) :
    noDoubleSpace (a :: t) = noDoubleSpace t := by
  cases t with
  | nil => simp [noDoubleSpace]
  | cons d rest => simp [noDoubleSpace, ha]

theorem noDoubleSpace_append (l : List Char) (hl : ∀ c ∈ l, c ≠ ' ')
    (t : List Char) (ht : noDoubleSpace t = true) :
    noDoubleSpace (l ++ t) = true := by
  induction l with
  | nil => simpa using ht
  | cons a l ih =>
    rw [List.cons_append, noDoubleSpace_cons_of_ne (hl a (by simp))]
    exact ih (fun c hc => hl c (by simp [hc]))

theorem joinSp_head_nonspace (l : List Char) (ls : List (List Char))
    (h : ∀ m ∈ l :: ls, m ≠ [] ∧ ∀ c ∈ m, goIsSpace c = false) :
    ∃ d rest, joinSp (l :: ls) = d :: rest ∧ goIsSpace d = false := by
  obtain ⟨hne, hfree⟩ := h l (by simp)
  cases l with
  | nil => exact absurd rfl hne
  | cons d l' =>
    cases ls with
    | nil => exact ⟨d, l', by simp [joinSp], hfree d (by simp)⟩
    | cons l'' ls' =>
      exact ⟨d, l' ++ ' ' :: joinSp (l'' :: ls'), by simp [joinSp], hfree d (by simp)⟩

theorem noDoubleSpace_joinSp (xss : List (List Char))
    (h : ∀ l ∈ xss, l ≠ [] ∧ ∀ c ∈ l, goIsSpace c = false) :
    noDoubleSpace (joinSp xss) = true := by
  induction xss with
  | nil => simp [joinSp, noDoubleSpace]
  | cons l ls ih =>
    have hl := h l (by simp)
    have hls : ∀ m ∈ ls, m ≠ [] ∧ ∀ c ∈ m, goIsSpace c = false :=
      fun m hm => h m (by simp [hm])
    have hlne : ∀ c ∈ l, c ≠ ' ' :=
      fun c hc => (not_space_ne c (hl.2 c hc)).2.2.2
    cases ls with
    | nil =>
      show noDoubleSpace (joinSp [l]) = true
      have h0 : joinSp [l] = l ++ [] := by simp [joinSp]
      rw [h0]
      exact noDoubleSpace_append l hlne [] rfl
    | cons l' ls' =>
      show noDoubleSpace (l ++ ' ' :: joinSp (l' :: ls')) = true
      obtain ⟨d, rest, hj, hd⟩ := joinSp_head_nonspace l' ls' hls
      refine noDoubleSpace_append l hlne _ ?_
      rw [hj]
      have hdne : d ≠ ' ' := (not_space_ne d hd).2.2.2
      have : noDoubleSpace (' ' :: d :: rest) = noDoubleSpace (d :: rest) := by
        simp [noDoubleSpace, hdne]
      rw [this, ← hj]
      exact ih hls

theorem filter_eq_self_of {p : Char → Bool} :
    ∀ l : List Char, (∀ c ∈ l, p c = true) → l.filter p = l := by
  intro l h
  induction l with
  | nil => rfl
  | cons a l ih =>
    rw [List.filter_cons, if_pos (h a (by simp)), ih (fun c hc => h c (by simp [hc]))]

theorem map_eq_self_of {f : Char → Char} :
    ∀ l : List Char, (∀ c ∈ l, f c = c) → l.map f = l := by
  intro l h
  induction l with
  | nil => rfl
  | cons a l ih =>
    rw [List.map_cons, h a (by simp), ih (fun c hc => h c (by simp [hc]))]

theorem sanitizeValue_space_mem (v : List Char) :
    ∀ c ∈ sanitizeValue v, goIsSpace c = true → c = ' ' := by
  intro c hc
  exact space_mem_joinSp_chunks _ (fieldsAux_chunks _ [] (by simp)) c hc

theorem sanitize_fixed (w : List Char) :
    sanitizeValue (joinSp (fields w)) = joinSp (fields w) := by
  have hchunks := fields_chunks w
  have hmem : ∀ c ∈ joinSp (fields w), goIsSpace c = true → c = ' ' :=
    space_mem_joinSp_chunks _ hchunks
  have hr : ∀ c ∈ joinSp (fields w), c ≠ '\r' := by
    intro c hc h
    subst h
    exact absurd (hmem '\r' hc (by decide)) (by decide)
  have hn : ∀ c ∈ joinSp (fields w), c ≠ '\n' := by
    intro c hc h
    subst h
    exact absurd (hmem '\n' hc (by decide)) (by decide)
  have ht : ∀ c ∈ joinSp (fields w), c ≠ '\t' := by
    intro c hc h
    subst h
    exact absurd (hmem '\t' hc (by decide)) (by decide)
  have h1 : (joinSp (fields w)).filter (fun c => decide (¬ c = '\r')) =
      joinSp (fields w) :=
    filter_eq_self_of _ (fun c hc => by simp [hr c hc])
  have h2 : (joinSp (fields w)).filter (fun c => decide (¬ c = '\n')) =
      joinSp (fields w) :=
    filter_eq_self_of _ (fun c hc => by simp [hn c hc])
  have h3 : (joinSp (fields w)).map (fun c => if c = '\t' then ' ' else c) =
      joinSp (fields w) :=
    map_eq_self_of _ (fun c hc => by simp [ht c hc])
  show joinSp (fields ((((joinSp (fields w)).filter _).filter _).map _)) = _
  rw [h1, h2, h3, fields_of_joinSp _ hchunks]

/-- Claim C5: the sanitizer is idempotent — `sanitize(sanitize(x)) ==
sanitize(x)` for every input `x`.  (`sanitizeValue` is a total Lean
function, so purity and totality hold by construction.) -/
theorem sanitizeValue_idempotent (x : List Char) :
    sanitizeValue (sanitizeValue x) = sanitizeValue x :=
  sanitize_fixed _

/-- Claim C6 (amended): for every input `x`, `sanitize(x)` contains no
carriage return, no newline, no tab, and no two consecutive spaces;
control characters that are not white space are preserved, so the
"no control characters at all" part of the claim does not hold. -/
theorem sanitizeValue_whitespace_free (x : List Char) :
    '\r' ∉ sanitizeValue x ∧ '\n' ∉ sanitizeValue x ∧ '\t' ∉ sanitizeValue x ∧
      noDoubleSpace (sanitizeValue x) = true := by
  have hmem := sanitizeValue_space_mem x
  refine ⟨?_, ?_, ?_, ?_⟩
  · intro hc
    exact absurd (hmem '\r' hc (by decide)) (by decide)
  · intro hc
    exact absurd (hmem '\n' hc (by decide)) (by decide)
  · intro hc
    exact absurd (hmem '\t' hc (by decide)) (by decide)
  · exact noDoubleSpace_joinSp _ (fieldsAux_chunks _ [] (by simp))

/-- Claim C6 counterexample: `sanitizeValue` leaves the control character
`U+0001` untouched, so its output can contain control characters, refuting
"no control characters at all". -/
theorem sanitizeValue_control_char_cex :
    sanitizeValue [Char.ofNat 1] = [Char.ofNat 1] ∧ (Char.ofNat 1).toNat < 32 ∧
      Char.ofNat 1 ∉ [' ', '\r', '\n', '\t'] := by
  refine ⟨by decide, by decide, by decide⟩

theorem dropWhile_head_false {p : Char → Bool} :
    ∀ (l : List Char) {c : Char} {rest : List Char},
      l.dropWhile p = c :: rest → p c = false := by
  intro l
  induction l with
  | nil => intro c rest h; simp [List.dropWhile] at h
  | cons a l ih =>
    intro c rest h
    rw [List.dropWhile_cons] at h
    cases hp : p a with
    | true => rw [if_pos hp] at h; exact ih h
    | false =>
      rw [if_neg (by simp [hp])] at h
      rcases List.cons.injEq .. ▸ h with ⟨rfl, -⟩
      exact hp

theorem trimSpace_head {s : List Char} {c : Char} {rest : List Char}
    (h : trimSpace s = c :: rest) : goIsSpace c = false :=
  dropWhile_head_false _ h

theorem fieldsAux_ne_nil (s : List Char) :
    ∀ acc, acc ≠ [] → fieldsAux s acc ≠ [] := by
  induction s with
  | nil =>
    intro acc hacc
    rw [fieldsAux_nil, if_neg hacc]
    simp
  | cons c cs ih =>
    intro acc hacc
    cases hsp : goIsSpace c with
    | true =>
      rw [fieldsAux_cons_space hsp, if_neg hacc]
      simp
    | false =>
      rw [fieldsAux_cons_nonspace hsp]
      exact ih (c :: acc) (by simp)

theorem joinSp_ne_nil (f : List Char) (fs : List (List Char)) (hf : f ≠ []) :
    joinSp (f :: fs) ≠ [] := by
  cases fs with
  | nil => simpa [joinSp] using hf
  | cons f' fs' =>
    show f ++ ' ' :: joinSp (f' :: fs') ≠ []
    simp

theorem joinSp_fieldsAux_ne_nil (m acc : List Char) (hacc : acc ≠ [])
    (haccw : ∀ c ∈ acc, goIsSpace c = false) : joinSp (fieldsAux m acc) ≠ [] := by
  have hne := fieldsAux_ne_nil m acc hacc
  cases hx : fieldsAux m acc with
  | nil => exact absurd hx hne
  | cons f fs =>
    exact joinSp_ne_nil f fs (fieldsAux_chunks m acc haccw f (by rw [hx]; simp)).1

theorem sanitizeValue_cons_ne_nil {c : Char} (hc : goIsSpace c = false)
    (rest : List Char) : sanitizeValue (c :: rest) ≠ [] := by
  obtain ⟨hr, hn, ht, -⟩ := not_space_ne c hc
  show joinSp (fields ((((c :: rest).filter _).filter _).map _)) ≠ []
  rw [List.filter_cons, if_pos (by simp [hr]), List.filter_cons,
    if_pos (by simp [hn]), List.map_cons, if_neg ht]
  rw [fields, fieldsAux_cons_nonspace hc]
  exact joinSp_fieldsAux_ne_nil _ [c] (by simp) (by simpa using hc)

theorem sanitizeValue_trim_nil_iff (s : List Char) :
    sanitizeValue (trimSpace s) = [] ↔ trimSpace s = [] := by
  constructor
  · intro h
    cases htr : trimSpace s with
    | nil => rfl
    | cons c rest =>
      rw [htr] at h
      exact absurd h (sanitizeValue_cons_ne_nil (trimSpace_head htr) rest)
  · intro h
    rw [h]
    rfl


theorem traverseTreeList_eq_map (cs : List CNode) :
    traverseTreeList cs = cs.map traverseTree := by
  induction cs with
  | nil => rfl
  | cons c cs ih => rw [traverseTreeList, ih, List.map_cons]

theorem traverseTree_def (ty : String) (content : List Char) (cs : List CNode) :
    traverseTree (CNode.mk ty content cs) =
      if (if ty = "class_declaration" then ([] : List Char)
            else sanitizeValue (trimSpace content)) ≠ [] ∧
          isRedundantChildren (CNode.mk ty content cs) = true then
        Node.mk ty
          (if ty = "class_declaration" then [] else sanitizeValue (trimSpace content)) []
      else
        Node.mk ty
          (if ty = "class_declaration" then [] else sanitizeValue (trimSpace content))
          (cs.map traverseTree) := by
  rw [traverseTree, traverseTreeList_eq_map]

theorem value_ite (c : Prop) [Decidable c] (t : String) (v : List Char)
    (l1 l2 : List Node) :
    (if c then Node.mk t v l1 else Node.mk t v l2).value = v := by
  split <;> rfl

theorem isRedundantChildren_scoped (content : List Char) (cs : List CNode) :
    isRedundantChildren (CNode.mk "scoped_identifier" content cs) =
      decide (trimSpace content = composite cs) := by
  simp [isRedundantChildren, CNode.type, CNode.content, CNode.children]

/-- Claim C1 (amended): for a concrete `scoped_identifier` node the reducer
collapses exactly when the node's own trimmed text is non-empty and equals
the `.`-join of its named children's trimmed texts; when it collapses the
reduced node has empty `Children` and its `Value` is the *sanitized*
trimmed text (which can differ from the trimmed text itself, e.g. when the
matching text spans a tab or line break); otherwise all named children are
retained, reduced, in source order. -/
theorem scoped_identifier_collapse (content : List Char) (cs : List CNode) :
    traverseTree (CNode.mk "scoped_identifier" content cs) =
      if trimSpace content ≠ [] ∧ trimSpace content = composite cs then
        Node.mk "scoped_identifier" (sanitizeValue (trimSpace content)) []
      else
        Node.mk "scoped_identifier" (sanitizeValue (trimSpace content))
          (cs.map traverseTree) := by
  rw [traverseTree_def]
  have h1 : (if ("scoped_identifier" : String) = "class_declaration"
      then ([] : List Char) else sanitizeValue (trimSpace content)) =
      sanitizeValue (trimSpace content) := if_neg (by decide)
  rw [h1, isRedundantChildren_scoped]
  by_cases hc : trimSpace content ≠ [] ∧ trimSpace content = composite cs
  · rw [if_pos ⟨(not_congr (sanitizeValue_trim_nil_iff content)).mpr hc.1,
      decide_eq_true hc.2⟩, if_pos hc]
  · rw [if_neg ?_, if_neg hc]
    rintro ⟨hv, hd⟩
    exact hc ⟨(not_congr (sanitizeValue_trim_nil_iff content)).mp hv,
      of_decide_eq_true hd⟩

/-- Claim C1 counterexample: two concrete `scoped_identifier` nodes refute
the claim as stated.  (a) For source text `a.\tb.c` (children `a.\tb` and
`c`) the trimmed text equals the join, the node collapses, but the stored
`Value` is the sanitized `a. b.c`, not the trimmed text.  (b) For a node
whose own text and single child's text are empty, the trimmed text equals
the join yet the reducer keeps the child, because the sanitized value is
empty. -/
theorem scoped_identifier_collapse_cex :
    (trimSpace (toChars "a.\tb.c") =
        composite [CNode.mk "scoped_identifier" (toChars "a.\tb")
            [CNode.mk "identifier" (toChars "a") [],
             CNode.mk "identifier" (toChars "b") []],
          CNode.mk "identifier" (toChars "c") []] ∧
      traverseTree (CNode.mk "scoped_identifier" (toChars "a.\tb.c")
          [CNode.mk "scoped_identifier" (toChars "a.\tb")
            [CNode.mk "identifier" (toChars "a") [],
             CNode.mk "identifier" (toChars "b") []],
           CNode.mk "identifier" (toChars "c") []]) =
        Node.mk "scoped_identifier" (toChars "a. b.c") [] ∧
      toChars "a. b.c" ≠ trimSpace (toChars "a.\tb.c")) ∧
    (trimSpace ([] : List Char) = composite [CNode.mk "identifier" [] []] ∧
      (traverseTree (CNode.mk "scoped_identifier" []
        [CNode.mk "identifier" [] []])).children ≠ []) := by
  refine ⟨⟨by decide, ?_, by decide⟩, ⟨by decide, ?_⟩⟩
  · rw [traverseTree_def, if_pos (by decide)]
    have hv : (if ("scoped_identifier" : String) = "class_declaration"
        then ([] : List Char)
        else sanitizeValue (trimSpace (toChars "a.\tb.c"))) = toChars "a. b.c" := by
      decide
    rw [hv]
  · rw [traverseTree_def, if_neg (by decide)]
    simp [Node.children]

/-- Claim C4 (amended): the reducer leaves `Value` unset only for
`class_declaration` nodes; every other node type — including
`interface_declaration` — gets the sanitized, whitespace-trimmed source
text as its `Value`. -/
theorem traverseTree_value_only_class_declaration (ty : String)
    (content : List Char) (cs : List CNode) :
    (traverseTree (CNode.mk ty content cs)).value =
      if ty = "class_declaration" then [] else sanitizeValue (trimSpace content) := by
  rw [traverseTree_def, value_ite]

/-- Claim C4 counterexample: an `interface_declaration` node does receive a
`Value` (the sanitized source text), contradicting the claim that it, as a
"declaration container", carries none. -/
theorem interface_declaration_value_cex :
    (traverseTree (CNode.mk "interface_declaration"
        (toChars "interface I") [])).value = toChars "interface I" ∧
      toChars "interface I" ≠ ([] : List Char) := by
  constructor
  · have hv : (if ("interface_declaration" : String) = "class_declaration"
        then ([] : List Char)
        else sanitizeValue (trimSpace (toChars "interface I"))) =
        toChars "interface I" := by decide
    rw [traverseTree_def, hv, value_ite]
  · decide

/-- Claim C7: the redundancy collapse is type-gated — a node whose type is
not `scoped_identifier` never drops children: its reduced `Children` are
the reductions of all its named children in source order, even if its own
text happens to equal the `.`-join of its children's texts. -/
theorem non_scoped_keeps_children (ty : String) (content : List Char)
    (cs : List CNode) (h : ty ≠ "scoped_identifier") :
    (traverseTree (CNode.mk ty content cs)).children = cs.map traverseTree := by
  rw [traverseTree_def, if_neg ?_]
  · rfl
  · rintro ⟨-, hred⟩
    simp [isRedundantChildren, CNode.type, h] at hred

/-- Witness for C7 at a concrete `program` node whose text `a.b` equals the
join of its two children's texts: the children are still retained. -/
theorem non_scoped_keeps_children_witness :
    ("program" : String) ≠ "scoped_identifier" ∧
      (traverseTree (CNode.mk "program" (toChars "a.b")
        [CNode.mk "identifier" (toChars "a") [],
         CNode.mk "identifier" (toChars "b") []])).children =
        [CNode.mk "identifier" (toChars "a") [],
         CNode.mk "identifier" (toChars "b") []].map traverseTree :=
  ⟨by decide, non_scoped_keeps_children "program" (toChars "a.b")
    [CNode.mk "identifier" (toChars "a") [],
     CNode.mk "identifier" (toChars "b") []] (by decide)⟩

theorem locateStep_eq (acc : List Char) (c : Node) :
    locateStep acc c = (declName c).getD acc := by
  by_cases h : c.type = "class_declaration" ∨ c.type = "interface_declaration"
  · rw [locateStep, if_pos h, declName, if_pos h]
    cases hf : c.children.find? (fun gc => gc.type == "identifier") with
    | none => simp
    | some gc => simp
  · rw [locateStep, if_neg h, declName, if_neg h]
    rfl

theorem foldl_locateStep (l : List Node) :
    ∀ acc, l.foldl locateStep acc = lastOr (l.filterMap declName) acc := by
  induction l with
  | nil => intro acc; rfl
  | cons c l ih =>
    intro acc
    rw [List.foldl_cons, ih, locateStep_eq]
    cases hd : declName c with
    | none =>
      rw [Option.getD_none, List.filterMap_cons_none hd]
    | some v =>
      rw [Option.getD_some, List.filterMap_cons_some hd]
      rfl

/-- Claim C2 (amended): the locator scans all immediate children of the
file's root node; the emitted name is the `Value` of the first identifier
grandchild of the LAST declaration-typed child that has an identifier
grandchild — later top-level declarations overwrite earlier ones, rather
than being ignored. -/
theorem locateClassName_last_declaration_wins (tree : Node) :
    locateClassName tree = lastOr (tree.children.filterMap declName) [] :=
  foldl_locateStep tree.children []

/-- Claim C2 counterexample: a root with two class declarations named `A`
then `B` is named after `B`, the last one — refuting "the name never comes
from a declaration other than the first". -/
theorem locateClassName_first_match_cex :
    locateClassName (Node.mk "program" []
      [Node.mk "class_declaration" [] [Node.mk "identifier" (toChars "A") []],
       Node.mk "class_declaration" [] [Node.mk "identifier" (toChars "B") []]]) =
      toChars "B" ∧ toChars "B" ≠ toChars "A" := by
  exact ⟨rfl, by decide⟩

theorem foldl_locateStep_nil (l : List Node)
    (h : ∀ c ∈ l, (declName c).getD [] = []) :
    l.foldl locateStep [] = [] := by
  induction l with
  | nil => rfl
  | cons c l ih =>
    rw [List.foldl_cons, locateStep_eq, h c (by simp)]
    exact ih (fun d hd => h d (by simp [hd]))

theorem declName_none_of_no_pair (c : Node)
    (h : ((c.type == "class_declaration" || c.type == "interface_declaration") &&
      c.children.any (fun gc => gc.type == "identifier")) = false) :
    declName c = none := by
  by_cases hd : c.type = "class_declaration" ∨ c.type = "interface_declaration"
  · rw [declName, if_pos hd]
    have hany : c.children.any (fun gc => gc.type == "identifier") = false := by
      rcases hd with hd | hd <;> simp [hd] at h ⊢ <;> exact h
    have : c.children.find? (fun gc => gc.type == "identifier") = none := by
      rw [List.find?_eq_none]
      intro gc hgc hp
      rw [List.any_eq_false] at hany
      exact hany gc hgc hp
    rw [this]
    rfl
  · rw [declName, if_neg hd]

theorem locateClassName_nil_of_no_pair (tree : Node)
    (h : hasDeclPair tree = false) : locateClassName tree = [] := by
  rw [hasDeclPair, List.any_eq_false] at h
  refine foldl_locateStep_nil _ (fun c hc => ?_)
  rw [declName_none_of_no_pair c ?_]
  · rfl
  · have := h c hc
    simpa using this

/-- Claim C10: when a declaration-typed child is present among the root's
immediate children but every declaration child yields an empty name (no
identifier grandchild, or a first identifier grandchild with empty
`Value`), the emitter behaves exactly like the no-declaration case: it
logs the not-found line, writes no artifact, and returns nil. -/
theorem empty_name_treated_as_not_found (tree : Node) (p : String)
    (io : Option String)
    (hpresent : tree.children.any (fun c =>
      c.type == "class_declaration" || c.type == "interface_declaration") = true)
    (hempty : ∀ c ∈ tree.children, (declName c).getD [] = []) :
    locateClassName tree = [] ∧
      saveClassToFileWithDir tree p io = (none, none, [LogMsg.notFound p]) := by
  have h1 : locateClassName tree = [] := foldl_locateStep_nil _ hempty
  exact ⟨h1, by rw [saveClassToFileWithDir.eq_def, if_pos h1]⟩

/-- Witness for C10 at a root with one class declaration whose identifier
has an empty `Value`. -/
theorem empty_name_treated_as_not_found_witness :
    ((Node.mk "program" []
        [Node.mk "class_declaration" [] [Node.mk "identifier" [] []]]).children.any
        (fun c =>
          c.type == "class_declaration" || c.type == "interface_declaration") = true ∧
      (∀ c ∈ (Node.mk "program" []
        [Node.mk "class_declaration" [] [Node.mk "identifier" [] []]]).children,
        (declName c).getD [] = [])) ∧
    (locateClassName (Node.mk "program" []
        [Node.mk "class_declaration" [] [Node.mk "identifier" [] []]]) = [] ∧
      saveClassToFileWithDir (Node.mk "program" []
          [Node.mk "class_declaration" [] [Node.mk "identifier" [] []]])
          "Empty.java" none =
        (none, none, [LogMsg.notFound "Empty.java"])) :=
  ⟨⟨by decide, by decide⟩,
    empty_name_treated_as_not_found _ "Empty.java" none (by decide) (by decide)⟩

theorem walkFn_fst_none (ev : WalkEvent) : (walkFn ev).1 = none := by
  cases ev with
  | accessError p => rfl
  | dirEntry p nm => rfl
  | fileEntry p nm parsed io =>
    show (walkFn (WalkEvent.fileEntry p nm parsed io)).1 = none
    simp only [walkFn]
    split
    · cases parsed with
      | none => rfl
      | some ct =>
        show (match saveClassToFileWithDir (traverseTree ct) p io with
          | (some e, _, logs) => (none, none, logs ++ [LogMsg.saveErr p e])
          | (none, art, logs) =>
            (none, art, logs) : Option String × Option (List Char) × List LogMsg).1 =
          none
        rcases hs : saveClassToFileWithDir (traverseTree ct) p io with ⟨fst, art, logs⟩
        cases fst <;> rfl
    · rfl

theorem walkDir_eq (events : List WalkEvent) :
    walkDir events =
      ⟨none, events.filterMap (fun ev => (walkFn ev).2.1),
        (events.map (fun ev => (walkFn ev).2.2)).flatten⟩ := by
  induction events with
  | nil => rfl
  | cons ev rest ih =>
    rcases hw : walkFn ev with ⟨fst, art, logs⟩
    have hf : fst = none := by
      have := walkFn_fst_none ev
      rw [hw] at this
      exact this
    subst hf
    simp only [walkDir, hw, ih, List.filterMap_cons, List.map_cons, List.flatten_cons]
    cases art <;> simp

theorem ParseProject_eq (events : List WalkEvent) :
    ParseProject events =
      ⟨none, events.filterMap (fun ev => (walkFn ev).2.1),
        (events.map (fun ev => (walkFn ev).2.2)).flatten⟩ := by
  rw [ParseProject, walkDir_eq]

/-- Claim C3 (amended): `ParseProject` never returns a non-nil error — not
even when enumerating the directory tree fails, since the callback logs
and swallows the error the walker reports (the error-wrapping return in
`ParseProject` is unreachable).  Per-file failures (read/parse failure, or
a save failure) contribute zero artifacts for that file, and the run's
artifacts are exactly those of the successfully processed files. -/
theorem parseProject_error_policy (events : List WalkEvent) :
    (ParseProject events).err = none ∧
    (ParseProject events).artifacts =
      events.filterMap (fun ev => (walkFn ev).2.1) ∧
    (∀ p nm io, (walkFn (WalkEvent.fileEntry p nm none io)).2.1 = none) ∧
    (∀ p nm ct e,
      (walkFn (WalkEvent.fileEntry p nm (some ct) (some e))).2.1 = none) ∧
    (∀ p, walkFn (WalkEvent.accessError p) =
      (none, none, [LogMsg.accessErr p])) := by
  refine ⟨by rw [ParseProject_eq], by rw [ParseProject_eq], ?_, ?_, fun p => rfl⟩
  · intro p nm io
    show (walkFn (WalkEvent.fileEntry p nm none io)).2.1 = none
    simp only [walkFn]
    split <;> rfl
  · intro p nm ct e
    show (walkFn (WalkEvent.fileEntry p nm (some ct) (some e))).2.1 = none
    simp only [walkFn]
    split
    · show (match saveClassToFileWithDir (traverseTree ct) p (some e) with
        | (some e, _, logs) => (none, none, logs ++ [LogMsg.saveErr p e])
        | (none, art, logs) =>
          (none, art, logs) : Option String × Option (List Char) × List LogMsg).2.1 =
        none
      have hart : (saveClassToFileWithDir (traverseTree ct) p (some e)).2.1 = none := by
        rw [saveClassToFileWithDir.eq_def]
        split
        · rfl
        · rfl
      rcases hs : saveClassToFileWithDir (traverseTree ct) p (some e)
        with ⟨fst, art, logs⟩
      rw [hs] at hart
      cases fst
      · exact hart
      · rfl
    · rfl

/-- Claim C3 counterexample: a walk consisting of a single access failure —
the walker reporting that the root directory cannot be accessed — still
produces a nil overall error (and no artifacts), refuting "returns a
non-nil error if and only if enumerating the directory tree itself
fails". -/
theorem parseProject_walk_error_cex :
    (ParseProject [WalkEvent.accessError "root"]).err = none ∧
    (ParseProject [WalkEvent.accessError "root"]).artifacts = [] ∧
    (ParseProject [WalkEvent.accessError "root"]).logs =
      [LogMsg.accessErr "root"] := by
  exact ⟨rfl, rfl, rfl⟩

/-- Claim C8: for a `.java` file whose reduced tree has no
declaration/identifier pair among the root's immediate children, the file
produces zero artifacts, the condition is only logged (the not-found
line), the per-file step returns nil, and the walk continues: the overall
result stays successful and its artifacts are exactly those of the
remaining events. -/
theorem no_declaration_nonfatal (ct : CNode) (p nm : String)
    (io : Option String) (rest : List WalkEvent)
    (hext : goExt (toChars nm) = toChars ".java")
    (h : hasDeclPair (traverseTree ct) = false) :
    saveClassToFileWithDir (traverseTree ct) p io =
      (none, none, [LogMsg.notFound p]) ∧
    walkFn (WalkEvent.fileEntry p nm (some ct) io) =
      (none, none, [LogMsg.notFound p]) ∧
    (ParseProject (WalkEvent.fileEntry p nm (some ct) io :: rest)).err = none ∧
    (ParseProject (WalkEvent.fileEntry p nm (some ct) io :: rest)).artifacts =
      (ParseProject rest).artifacts := by
  have h1 : locateClassName (traverseTree ct) = [] :=
    locateClassName_nil_of_no_pair _ h
  have h2 : saveClassToFileWithDir (traverseTree ct) p io =
      (none, none, [LogMsg.notFound p]) := by
    rw [saveClassToFileWithDir.eq_def, if_pos h1]
  have h3 : walkFn (WalkEvent.fileEntry p nm (some ct) io) =
      (none, none, [LogMsg.notFound p]) := by
    have hu : walkFn (WalkEvent.fileEntry p nm (some ct) io) =
        if goExt (toChars nm) = toChars ".java" then
          match saveClassToFileWithDir (traverseTree ct) p io with
          | (some e, _, logs) => (none, none, logs ++ [LogMsg.saveErr p e])
          | (none, art, logs) => (none, art, logs)
        else (none, none, []) := rfl
    rw [hu, if_pos hext, h2]
  refine ⟨h2, h3, ?_, ?_⟩
  · rw [ParseProject_eq]
  · rw [ParseProject_eq, ParseProject_eq]
    have hnone : (fun ev => (walkFn ev).2.1)
        (WalkEvent.fileEntry p nm (some ct) io) = none := by simp [h3]
    show List.filterMap (fun ev => (walkFn ev).2.1)
        (WalkEvent.fileEntry p nm (some ct) io :: rest) =
      List.filterMap (fun ev => (walkFn ev).2.1) rest
    exact List.filterMap_cons_none hnone

/-- Witness for C8 at a `.java` file whose tree is a bare `program` root
with no children, followed by an empty remainder of the walk. -/
theorem no_declaration_nonfatal_witness :
    (goExt (toChars "X.java") = toChars ".java" ∧
      hasDeclPair (traverseTree (CNode.mk "program" [] [])) = false) ∧
    (saveClassToFileWithDir (traverseTree (CNode.mk "program" [] []))
        "src/X.java" none = (none, none, [LogMsg.notFound "src/X.java"]) ∧
      walkFn (WalkEvent.fileEntry "src/X.java" "X.java"
          (some (CNode.mk "program" [] [])) none) =
        (none, none, [LogMsg.notFound "src/X.java"]) ∧
      (ParseProject [WalkEvent.fileEntry "src/X.java" "X.java"
          (some (CNode.mk "program" [] [])) none]).err = none ∧
      (ParseProject [WalkEvent.fileEntry "src/X.java" "X.java"
          (some (CNode.mk "program" [] [])) none]).artifacts =
        (ParseProject []).artifacts) := by
  have ht : traverseTree (CNode.mk "program" [] []) = Node.mk "program" [] [] := by
    rw [traverseTree_def, if_neg (by decide)]
    have hv : (if ("program" : String) = "class_declaration" then ([] : List Char)
        else sanitizeValue (trimSpace [])) = [] := by decide
    rw [hv, List.map_nil]
  have hdp : hasDeclPair (traverseTree (CNode.mk "program" [] [])) = false := by
    rw [ht]
    decide
  exact ⟨⟨by decide, hdp⟩,
    no_declaration_nonfatal (CNode.mk "program" [] []) "src/X.java" "X.java"
      none [] (by decide) hdp⟩

theorem Node.inductionOn (motive : Node → Prop)
    (h : ∀ t v cs, (∀ c ∈ cs, motive c) → motive (Node.mk t v cs)) :
    ∀ n, motive n
  | Node.mk t v cs => by
    refine h t v cs (fun c hc => ?_)
    have hlt : sizeOf c < sizeOf (Node.mk t v cs) := by
      have h1 := List.sizeOf_lt_of_mem hc
      simp only [Node.mk.sizeOf_spec]
      omega
    exact Node.inductionOn motive h c
termination_by n => sizeOf n

theorem decodeFields_nil (acc : Node) : decodeFields [] acc = some acc := by
  simp [decodeFields]

theorem decodeFields_type (s : List Char) (rest : List (String × Json))
    (acc : Node) :
    decodeFields (("type", Json.str s) :: rest) acc =
      decodeFields rest (Node.mk (String.mk s) acc.value acc.children) := by
  simp [decodeFields]

theorem decodeFields_value (s : List Char) (rest : List (String × Json))
    (acc : Node) :
    decodeFields (("value", Json.str s) :: rest) acc =
      decodeFields rest (Node.mk acc.type s acc.children) := by
  simp [decodeFields]

theorem decodeFields_children (xs : List Json) (rest : List (String × Json))
    (acc : Node) (cs : List Node) (h : decodeList xs = some cs) :
    decodeFields (("children", Json.arr xs) :: rest) acc =
      decodeFields rest (Node.mk acc.type acc.value cs) := by
  simp [decodeFields, h]

theorem decodeList_toJsonList (cs : List Node)
    (ih : ∀ c ∈ cs, decodeNode (toJson c) = some c) :
    decodeList (toJsonList cs) = some cs := by
  induction cs with
  | nil => simp [toJsonList, decodeList]
  | cons c cs ihl =>
    simp only [toJsonList, decodeList]
    rw [ih c (by simp), ihl (fun d hd => ih d (by simp [hd]))]

theorem decodeNode_toJson (n : Node) : decodeNode (toJson n) = some n := by
  induction n using Node.inductionOn with
  | h t v cs ih =>
    have hdl : decodeList (toJsonList cs) = some cs := decodeList_toJsonList cs ih
    simp only [toJson, decodeNode]
    rw [decodeFields_type]
    have heta : Node.mk (String.mk (toChars t)) (Node.value (Node.mk "" [] []))
        (Node.children (Node.mk "" [] [])) = Node.mk t [] [] := rfl
    rw [heta]
    by_cases hv : v = []
    · subst hv
      rw [if_pos rfl, List.nil_append]
      cases cs with
      | nil => simp [decodeFields_nil]
      | cons c0 cs' =>
        rw [if_neg (by simp), decodeFields_children _ _ _ _ hdl, decodeFields_nil]
        rfl
    · rw [if_neg hv, List.cons_append, List.nil_append, decodeFields_value]
      have heta2 : Node.mk (Node.type (Node.mk t [] [])) v
          (Node.children (Node.mk t [] [])) = Node.mk t v [] := rfl
      rw [heta2]
      cases cs with
      | nil => simp [decodeFields_nil]
      | cons c0 cs' =>
        rw [if_neg (by simp), decodeFields_children _ _ _ _ hdl, decodeFields_nil]
        rfl

/-- Claim C9: serializing a reduced `Node` to the output JSON shape (with
`value` omitted when empty and `children` omitted when empty) and decoding
that JSON yields a structurally identical tree, and field presence in the
JSON matches the emptiness of `Value` and `Children` exactly. -/
theorem json_round_trip (n : Node) :
    decodeNode (toJson n) = some n ∧
    (hasField (toJson n) "value" = true ↔ n.value ≠ []) ∧
    (hasField (toJson n) "children" = true ↔ n.children ≠ []) := by
  refine ⟨decodeNode_toJson n, ?_, ?_⟩
  · cases n with
    | mk t v cs =>
      show hasField (toJson (Node.mk t v cs)) "value" = true ↔ v ≠ []
      simp only [toJson, hasField]
      by_cases hv : v = []
      · subst hv
        cases cs <;> simp
      · cases cs <;> simp [hv]
  · cases n with
    | mk t v cs =>
      show hasField (toJson (Node.mk t v cs)) "children" = true ↔ cs ≠ []
      simp only [toJson, hasField]
      by_cases hv : v = []
      · subst hv
        cases cs <;> simp
      · cases cs <;> simp [hv]

end NexusOps
